import Mathlib

/-!
Verification of the retrieval (RAG) core of the `agentic_chatbot` repository,
a shallow embedding of `app/services/rag_service.py`.

Text is modelled as `List Char`.  Python slice and `str.strip` semantics are
embedded explicitly.  The vector index and the document registry are modelled
as association lists; the external backing services (the ChromaDB collection
and the SQLAlchemy session) are embedded following the collaborator contracts
stated in the specification, since their code is not part of the repository.
The chunking loop of `_chunk_text` is embedded with explicit fuel because its
termination is one of the questions under study.
-/

namespace RagService

/-- Python index resolution for slicing on a sequence of length `n`:
a negative index counts from the end and the result is clamped to `[0, n]`. -/
def pyIdx (n : Nat) (i : Int) : Nat :=
  if i < 0 then ((n : Int) + i).toNat else min i.toNat n

/-- Python slice `s[a:b]` on a list of characters. -/
def pySlice (s : List Char) (a b : Int) : List Char :=
  let a' := pyIdx s.length a
  let b' := pyIdx s.length b
  (s.drop a').take (b' - a')

/-- The whitespace characters removed by Python `str.strip()`. -/
def pyIsSpace (c : Char) : Bool :=
  c == ' ' || c == '\t' || c == '\n' || c == '\r' || c == '\x0b' || c == '\x0c'

/-- Python `str.strip()`: drop leading and trailing whitespace. -/
def pyStrip (s : List Char) : List Char :=
  ((s.dropWhile pyIsSpace).reverse.dropWhile pyIsSpace).reverse

/-- Membership test `c in '.!?'` from `_chunk_text`. -/
def isSentenceEnd (c : Char) : Bool :=
  c == '.' || c == '!' || c == '?'

/-- The backward scan `for i in range(len(chunk_text) - 1, -1, -1)` from
`_chunk_text`, lines 258-261: starting at index `k - 1` and walking down,
return the first index holding a sentence-terminal character. -/
def lastIdxAux (s : List Char) : Nat → Option Nat
  | 0 => none
  | k + 1 => if isSentenceEnd (s.getD k ' ') then some k else lastIdxAux s k

/-- Index of the last sentence-terminal character of `s`, found by the
backward scan of `_chunk_text`. -/
def lastSentenceIdx (s : List Char) : Option Nat :=
  lastIdxAux s s.length

/-- One iteration's end-offset computation of `_chunk_text` (lines 249-261):
propose `end = start + chunk_size`; if that is strictly before the end of the
text, scan the window `text[start:end]` backward for a sentence-terminal
character and, when one is found at window index `i`, move the end to
`start + i + 1`; otherwise keep the proposed end. -/
def computeEnd (text : List Char) (chunk_size start : Int) : Int :=
  let e0 := start + chunk_size
  if e0 < (text.length : Int) then
    match lastSentenceIdx (pySlice text start e0) with
    | some i => start + (i : Int) + 1
    | none => e0
  else e0

/-- `if chunk: chunks.append(chunk)` (lines 265-266). -/
def pushChunk (acc : List (List Char)) (c : List Char) : List (List Char) :=
  if c.isEmpty then acc else acc ++ [c]

/-- `start = end - chunk_overlap if end < text_length else text_length`
(line 269), where `end` is this iteration's (possibly snapped) end offset. -/
def nextStart (text : List Char) (chunk_size chunk_overlap start : Int) : Int :=
  if computeEnd text chunk_size start < (text.length : Int) then
    computeEnd text chunk_size start - chunk_overlap
  else (text.length : Int)

/-- The `while start < text_length` loop of `_chunk_text` (lines 247-269),
with explicit fuel: each iteration computes the end offset, emits the
stripped slice `text[start:end]` when non-empty, and advances
`start` to `end - chunk_overlap` (or to the text length when `end` reached
it).  Returns `none` when the fuel is exhausted before the loop exits. -/
def chunkLoop (text : List Char) (chunk_size chunk_overlap : Int) :
    Nat → Int → List (List Char) → Option (List (List Char))
  | 0, start, acc =>
      if start < (text.length : Int) then none else some acc
  | fuel + 1, start, acc =>
      if start < (text.length : Int) then
        chunkLoop text chunk_size chunk_overlap fuel
          (nextStart text chunk_size chunk_overlap start)
          (pushChunk acc
            (pyStrip (pySlice text start (computeEnd text chunk_size start))))
      else some acc

/-- `_chunk_text(text, chunk_size, chunk_overlap)` under the given fuel. -/
def chunkText (text : List Char) (chunk_size chunk_overlap : Int) (fuel : Nat) :
    Option (List (List Char)) :=
  chunkLoop text chunk_size chunk_overlap fuel 0 []

/-- A metadata value: the chunk metadata mixes strings (`document_id`,
`source_file`, caller fields) and integers (`chunk_index`). -/
inductive MVal where
  | s (v : String)
  | n (v : Int)
deriving DecidableEq, Repr

/-- A Python dict of metadata: insertion-ordered association list. -/
abbrev Meta := List (String × MVal)

/-- `d[k] = v` on a Python dict: overwrite in place when the key exists,
append otherwise. -/
def dictSet (d : Meta) (k : String) (v : MVal) : Meta :=
  if d.any (fun kv => kv.1 == k) then
    d.map (fun kv => if kv.1 == k then (k, v) else kv)
  else d ++ [(k, v)]

/-- Python `d.update(m)`: set every key of `m` into `d`, in `m`'s order. -/
def dictUpdate (d m : Meta) : Meta :=
  m.foldl (fun acc kv => dictSet acc kv.1 kv.2) d

/-- Python `d.get(k)` / `d[k]` lookup. -/
def dictGet (d : Meta) (k : String) : Option MVal :=
  (d.find? (fun kv => kv.1 == k)).map (·.2)

/-- One entry of the vector index: id, embedding vector, stored text and
metadata map.  Embedding coordinates are modelled as integers; their values
are opaque to every property proved here. -/
structure IndexEntry where
  eid : String
  emb : List Int
  text : List Char
  meta : Meta
deriving DecidableEq, Repr

/-- The `documents` registry record fields touched by the pipeline
(`app/models.py`: `is_processed`, default false, and `chunk_count`,
default 0). -/
structure DocRecord where
  is_processed : Bool
  chunk_count : Nat
deriving DecidableEq, Repr

/-- The state the pipeline acts on: the vector collection and the relational
document registry. -/
structure PipelineState where
  index : List IndexEntry
  registry : List (String × DocRecord)
deriving DecidableEq, Repr

/-- `Document.query.get(document_id)`. -/
def registryFind (reg : List (String × DocRecord)) (document_id : String) :
    Option DocRecord :=
  (reg.find? (fun r => r.1 == document_id)).map (·.2)

/-- Committing a mutation of the fetched registry row. -/
def registrySet (reg : List (String × DocRecord)) (document_id : String)
    (d : DocRecord) : List (String × DocRecord) :=
  reg.map (fun r => if r.1 == document_id then (document_id, d) else r)

/-- Modelled from the spec: one step of the `VectorIndex.insert` contract
(§4.4), "inserts or overwrites entries keyed by id" — the ChromaDB
collection behind `collection.add` is external to the repository. -/
def upsertOne (idx : List IndexEntry) (e : IndexEntry) : List IndexEntry :=
  if idx.any (fun e0 => e0.eid == e.eid) then
    idx.map (fun e0 => if e0.eid == e.eid then e else e0)
  else idx ++ [e]

/-- Modelled from the spec: the `VectorIndex.insert` contract (§4.4) applied
to a batch of entries, keyed by id. -/
def indexUpsert (index new : List IndexEntry) : List IndexEntry :=
  new.foldl upsertOne index

/-- The chunk id `f"{document_id}_chunk_{i}"` (line 75). -/
def chunkId (document_id : String) (i : Nat) : String :=
  document_id ++ "_chunk_" ++ toString i

/-- The per-chunk metadata of lines 79-86: the reserved keys are set first,
then — when the caller metadata is truthy — `chunk_metadata.update(metadata)`
is applied. -/
def buildChunkMeta (document_id : String) (i : Nat) (file_path : String)
    (metadata : Meta) : Meta :=
  let base : Meta :=
    [("document_id", MVal.s document_id),
     ("chunk_index", MVal.n i),
     ("source_file", MVal.s file_path)]
  if metadata.isEmpty then base else dictUpdate base metadata

/-- The parallel lists built by the `for i, chunk in enumerate(text_chunks)`
loop (lines 74-88), paired positionally as `collection.add` does. -/
def mkEntries (document_id file_path : String) (metadata : Meta)
    (texts : List (List Char)) (embs : List (List Int)) : List IndexEntry :=
  (List.range texts.length).map (fun i =>
    { eid := chunkId document_id i
      emb := embs.getD i []
      text := texts.getD i []
      meta := buildChunkMeta document_id i file_path metadata })

/-- `process_pdf_document` (lines 48-113).  `extracted` is the result of
`_extract_text_from_pdf` (which catches its own exceptions and returns the
empty list on failure); `embedRes` is the outcome of the
`embedding_model.encode` call and `insertOk` the outcome of
`collection.add`, the two external calls inside the `try` block that can
raise — any exception is caught and turned into `False` with no further
step executed. -/
def processPdfDocument (extracted : List (List Char))
    (embedRes : Except Unit (List (List Int))) (insertOk : Bool)
    (file_path document_id : String) (metadata : Meta)
    (st : PipelineState) : Bool × PipelineState :=
  if extracted.isEmpty then (false, st)
  else
    match embedRes with
    | .error _ => (false, st)
    | .ok embs =>
      if insertOk then
        match registryFind st.registry document_id with
        | some doc =>
            (true,
             { index := indexUpsert st.index
                 (mkEntries document_id file_path metadata extracted embs)
               registry := registrySet st.registry document_id
                 { doc with is_processed := true,
                            chunk_count := extracted.length } })
        | none =>
            (true,
             { index := indexUpsert st.index
                 (mkEntries document_id file_path metadata extracted embs)
               registry := st.registry })
      else (false, st)

/-- `delete_document_chunks` (lines 277-304): fetch the ids whose metadata
carries this `document_id`, delete them when there are any, and report
success either way. -/
def deleteDocumentChunks (index : List IndexEntry) (document_id : String) :
    Bool × List IndexEntry :=
  let results := index.filter
    (fun e => dictGet e.meta "document_id" == some (MVal.s document_id))
  let rids := results.map (·.eid)
  if rids.isEmpty then (true, index)
  else (true, index.filter (fun e => !(rids.contains e.eid)))

/-- Number of index entries whose metadata ties them to `document_id` —
the spec's `count()` restricted to a document. -/
def countDoc (index : List IndexEntry) (document_id : String) : Nat :=
  (index.filter
    (fun e => dictGet e.meta "document_id" == some (MVal.s document_id))).length

/-- Exact-match metadata filtering: every key of the `where` filter must hold
that value in the entry's metadata (spec §4.4, exact-match map). -/
def metaMatches (meta filt : Meta) : Bool :=
  filt.all (fun kv => dictGet meta kv.1 == some kv.2)

/-- Ranked insertion used to model nearest-first ordering. -/
def insertRanked (close : IndexEntry → IndexEntry → Bool) (e : IndexEntry) :
    List IndexEntry → List IndexEntry
  | [] => [e]
  | x :: xs => if close e x then e :: x :: xs else x :: insertRanked close e xs

/-- Modelled from the spec: the `VectorIndex.query` contract (§4.4) — the
ChromaDB `collection.query` call is external to the repository.  Entries
matching the optional exact-match filter are ranked nearest-first under the
index's distance `dist` from the query embedding, and at most `k` are
returned; an empty index yields an empty sequence. -/
def collectionQuery (dist : List Int → List Int → Int)
    (index : List IndexEntry) (qemb : List Int) (k : Nat)
    (filt : Option Meta) : List IndexEntry :=
  let cands : List IndexEntry :=
    match filt with
    | some f => index.filter (fun e => metaMatches e.meta f)
    | none => index
  (cands.foldr
    (insertRanked (fun a b : IndexEntry => decide (dist qemb a.emb ≤ dist qemb b.emb)))
    []).take k

/-- A formatted retrieval result (lines 147-151): text, metadata, and
`similarity_score = 1 - distance`. -/
structure RetrievalResult where
  text : List Char
  metadata : Meta
  similarity_score : Int
deriving DecidableEq, Repr

/-- `search_similar_documents` (lines 115-157): embed the query, run the
vector query, and format each hit; an empty result set formats to the
empty list. -/
def searchSimilarDocuments (embed : List Char → List Int)
    (dist : List Int → List Int → Int) (index : List IndexEntry)
    (query : List Char) (n_results : Nat) (filter_metadata : Option Meta) :
    List RetrievalResult :=
  let qemb := embed query
  (collectionQuery dist index qemb n_results filter_metadata).map (fun e =>
    { text := e.text, metadata := e.meta,
      similarity_score := 1 - dist qemb e.emb })

/-- `get_relevant_context` (lines 159-190): build a `category` filter when
the category string is truthy, search with the configured `TOP_K_RESULTS`,
and keep only the text of each result. -/
def getRelevantContext (embed : List Char → List Int)
    (dist : List Int → List Int → Int) (index : List IndexEntry)
    (query : List Char) (top_k : Nat) (category_filter : Option String) :
    List (List Char) :=
  let metadata_filter : Meta :=
    match category_filter with
    | some c => if c.isEmpty then [] else [("category", MVal.s c)]
    | none => []
  (searchSimilarDocuments embed dist index query top_k
    (if metadata_filter.isEmpty then none else some metadata_filter)).map (·.text)

/-- The page-concatenation loop of `_extract_text_from_pdf` (lines 208-213):
`full_text` starts empty, and each page whose extracted text is truthy
appends that text followed by a line break. -/
def buildFullText (pages : List (List Char)) : List Char :=
  pages.foldl (fun full_text page_text =>
    if page_text.isEmpty then full_text else full_text ++ page_text ++ ['\n']) []

/-- The concatenation the specification describes: one entry per physical
page, a page with no extractable text contributing an empty string rather
than being skipped, every entry concatenated with a line break. -/
def specFullText (pages : List (List Char)) : List Char :=
  pages.foldl (fun full_text page_text => full_text ++ page_text ++ ['\n']) []

/-- The specification's description of the sentence-boundary search: the
nearest sentence-terminal character searching backward from the proposed
end, i.e. the greatest window index holding one. -/
def specLastTerminal (s : List Char) : Option Nat :=
  ((List.range s.length).filter (fun i => isSentenceEnd (s.getD i ' '))).getLast?

/-- An index already holding two chunks of document `d`. -/
def c3Entry0 : IndexEntry := ⟨"d_chunk_0", [0], ['o'], [("document_id", MVal.s "d")]⟩

def c3Entry1 : IndexEntry := ⟨"d_chunk_1", [0], ['o'], [("document_id", MVal.s "d")]⟩

def c3State : PipelineState := ⟨[c3Entry0, c3Entry1], []⟩

def c3After : PipelineState :=
  (processPdfDocument [['x']] (Except.ok [[0]]) true "f.pdf" "d" [] c3State).2

/-- A text on which the chunking loop of `_chunk_text` never advances:
the only sentence-terminal character of the first window sits exactly
`chunk_overlap` characters past `start`. -/
def loopText : List Char := "a.aaaa".data

/-- With `chunk_size = 3` and `chunk_overlap = 2` on `loopText`, one loop
iteration from `start = 0` snaps the end to offset `2` (the sentence
boundary), emits the chunk `"a."`, and moves `start` to `2 - 2 = 0`. -/
theorem chunkLoop_loopText_step (n : Nat) (acc : List (List Char)) :
    chunkLoop loopText 3 2 (n + 1) 0 acc
      = chunkLoop loopText 3 2 n 0 (acc ++ ["a.".data]) := rfl

theorem chunkLoop_loopText_none (fuel : Nat) :
    ∀ acc : List (List Char), chunkLoop loopText 3 2 fuel 0 acc = none := by
  induction fuel with
  | zero => intro acc; rfl
  | succ n ih => intro acc; rw [chunkLoop_loopText_step]; exact ih _

/-- C1: the claim asserts that for `0 < chunk_size` and
`0 ≤ overlap < chunk_size` the chunking loop of `_chunk_text` always makes
forward progress and terminates.  On `loopText` with `chunk_size = 3` and
`overlap = 2` — a configuration satisfying both bounds — the sentence-boundary
snap pulls the end back to `start + overlap`, so `start = end - overlap`
never advances and the loop runs forever: the fuelled embedding returns
`none` for every fuel. -/
theorem c1_chunk_loop_diverges :
    ((0 : Int) < 3 ∧ (0 : Int) ≤ 2 ∧ (2 : Int) < 3)
      ∧ ∀ fuel : Nat, chunkText loopText 3 2 fuel = none :=
  ⟨by decide, fun fuel => chunkLoop_loopText_none fuel []⟩

theorem collectionQuery_empty (dist : List Int → List Int → Int)
    (qemb : List Int) (k : Nat) (filt : Option Meta) :
    collectionQuery dist [] qemb k filt = [] := by
  cases filt <;> simp [collectionQuery]

/-- C7: retrieval against an empty index returns an empty sequence for every
query, result bound and metadata/category filter, both for
`search_similar_documents` and for `get_relevant_context`; the functions are
total, so no exception escapes. -/
theorem c7_retrieval_empty_index (embed : List Char → List Int)
    (dist : List Int → List Int → Int) (q : List Char) (k top_k : Nat)
    (filt : Option Meta) (cat : Option String) :
    searchSimilarDocuments embed dist [] q k filt = []
      ∧ getRelevantContext embed dist [] q top_k cat = [] := by
  constructor
  · simp [searchSimilarDocuments, collectionQuery_empty]
  · simp [getRelevantContext, searchSimilarDocuments, collectionQuery_empty]

/-- C8: deleting the chunks of a `document_id` that has zero chunks stored in
the index succeeds: `delete_document_chunks` returns `True` and the index is
untouched. -/
theorem c8_delete_zero_chunks (index : List IndexEntry) (document_id : String)
    (h : countDoc index document_id = 0) :
    deleteDocumentChunks index document_id = (true, index) := by
  unfold countDoc at h
  rw [List.length_eq_zero] at h
  unfold deleteDocumentChunks
  simp [h]

theorem c8_delete_zero_chunks_witness :
    deleteDocumentChunks
        [⟨"e0", [1], ['x'], [("document_id", MVal.s "a")]⟩] "b"
      = (true, [⟨"e0", [1], ['x'], [("document_id", MVal.s "a")]⟩]) :=
  c8_delete_zero_chunks _ _ (by decide)

/-- C5 counterexample: a PDF whose first page has no extractable text and
whose second page reads `"a"`.  The claim says the empty page contributes an
empty entry to the line-break concatenation; the code skips it entirely, so
the two concatenations differ. -/
theorem c5_counterexample :
    buildFullText [[], ['a']] ≠ specFullText [[], ['a']] := by decide

theorem buildFullText_aux (pages : List (List Char)) (acc : List Char) :
    pages.foldl (fun full_text page_text =>
        if page_text.isEmpty then full_text else full_text ++ page_text ++ ['\n']) acc
      = acc ++ ((pages.filter (fun p => !p.isEmpty)).map (fun p => p ++ ['\n'])).flatten := by
  induction pages generalizing acc with
  | nil => simp
  | cons p ps ih =>
      cases hp : p.isEmpty
      · have hcond : ¬(p.isEmpty = true) := by rw [hp]; exact Bool.false_ne_true
        rw [List.foldl_cons, if_neg hcond, ih]
        have hfil : (p :: ps).filter (fun q => !q.isEmpty)
            = p :: ps.filter (fun q => !q.isEmpty) := by
          simp [List.filter_cons, hp]
        rw [hfil]
        simp [List.append_assoc]
      · rw [List.foldl_cons, if_pos hp, ih]
        have hfil : (p :: ps).filter (fun q => !q.isEmpty)
            = ps.filter (fun q => !q.isEmpty) := by
          simp [List.filter_cons, hp]
        rw [hfil]

/-- C5 amended: pages are processed in page order, but a page with no
extractable text is skipped entirely — it contributes nothing, not even a
line break; each page with text contributes its text followed by a line
break. -/
theorem c5_fullText_skips_empty_pages (pages : List (List Char)) :
    buildFullText pages
      = ((pages.filter (fun p => !p.isEmpty)).map (fun p => p ++ ['\n'])).flatten := by
  unfold buildFullText
  simpa using buildFullText_aux pages []

/-- C2: when the extracted chunk list is empty (blank concatenated text, or
an extraction failure, which `_extract_text_from_pdf` converts into the
empty list), or the embedding call raises, or the index insert raises,
`process_pdf_document` returns `False` and the document registry is left
unchanged — `is_processed` and `chunk_count` keep their previous values. -/
theorem c2_process_failure_leaves_registry (extracted : List (List Char))
    (embedRes : Except Unit (List (List Int))) (insertOk : Bool)
    (file_path document_id : String) (metadata : Meta) (st : PipelineState)
    (h : extracted.isEmpty = true ∨ embedRes = Except.error () ∨ insertOk = false) :
    (processPdfDocument extracted embedRes insertOk file_path document_id metadata st).1
        = false
      ∧ (processPdfDocument extracted embedRes insertOk file_path document_id
          metadata st).2.registry = st.registry := by
  rcases h with h | h | h
  · simp [processPdfDocument, h]
  · subst h
    cases he : extracted.isEmpty <;> simp [processPdfDocument, he]
  · subst h
    cases he : extracted.isEmpty
    · cases embedRes with
      | error e => simp [processPdfDocument, he]
      | ok embs => simp [processPdfDocument, he]
    · simp [processPdfDocument, he]

theorem c2_process_failure_leaves_registry_witness :
    (processPdfDocument [['a']] (Except.error ()) true "f.pdf" "d" []
        ⟨[], [("d", ⟨false, 0⟩)]⟩).1 = false
      ∧ (processPdfDocument [['a']] (Except.error ()) true "f.pdf" "d" []
          ⟨[], [("d", ⟨false, 0⟩)]⟩).2.registry = [("d", ⟨false, 0⟩)] :=
  c2_process_failure_leaves_registry _ _ _ _ _ _ _ (Or.inr (Or.inl rfl))

theorem dictGet_nil (k : String) : dictGet [] k = none := rfl

theorem dictGet_cons_pos (kv : String × MVal) (rest : Meta) (k : String)
    (h : (kv.1 == k) = true) : dictGet (kv :: rest) k = some kv.2 := by
  simp [dictGet, List.find?_cons, h]

theorem dictGet_cons_neg (kv : String × MVal) (rest : Meta) (k : String)
    (h : (kv.1 == k) = false) : dictGet (kv :: rest) k = dictGet rest k := by
  simp [dictGet, List.find?_cons, h]

theorem dictGet_map_set_self (d : Meta) (k : String) (v : MVal)
    (hany : d.any (fun kv => kv.1 == k) = true) :
    dictGet (d.map (fun kv => if kv.1 == k then (k, v) else kv)) k = some v := by
  induction d with
  | nil => simp at hany
  | cons kv rest ih =>
      rw [List.map_cons]
      cases hk : (kv.1 == k)
      · rw [if_neg (by simp [hk]), dictGet_cons_neg _ _ _ hk]
        have hrest : rest.any (fun kv => kv.1 == k) = true := by
          simp only [List.any_cons, hk, Bool.false_or] at hany
          exact hany
        exact ih hrest
      · rw [if_pos rfl, dictGet_cons_pos (k, v) _ _ (by simp)]

theorem dictGet_map_set_ne (d : Meta) (k' k : String) (v : MVal) (hne : k' ≠ k) :
    dictGet (d.map (fun kv => if kv.1 == k' then (k', v) else kv)) k
      = dictGet d k := by
  induction d with
  | nil => rfl
  | cons kv rest ih =>
      rw [List.map_cons]
      cases hk : (kv.1 == k')
      · rw [if_neg (by simp [hk])]
        cases hkvk : (kv.1 == k)
        · rw [dictGet_cons_neg _ _ _ hkvk, dictGet_cons_neg _ _ _ hkvk, ih]
        · rw [dictGet_cons_pos _ _ _ hkvk, dictGet_cons_pos _ _ _ hkvk]
      · rw [if_pos rfl]
        have hkeq : kv.1 = k' := by simpa using hk
        have hkvk : (kv.1 == k) = false := by
          rw [hkeq]
          simpa using hne
        rw [dictGet_cons_neg (k', v) _ _ (by simpa using hne),
          dictGet_cons_neg _ _ _ hkvk, ih]

theorem dictGet_dictSet_self (d : Meta) (k : String) (v : MVal) :
    dictGet (dictSet d k v) k = some v := by
  unfold dictSet
  cases hany : d.any (fun kv => kv.1 == k)
  · have hnone : d.find? (fun kv => kv.1 == k) = none := by
      rw [List.find?_eq_none]
      intro kv hkv
      have := List.any_eq_false.mp hany kv hkv
      simpa using this
    simp only [Bool.false_eq_true, if_false]
    rw [dictGet, List.find?_append, hnone]
    simp [List.find?_cons]
  · simp only [if_true]
    exact dictGet_map_set_self d k v hany

theorem dictGet_dictSet_ne (d : Meta) (k' k : String) (v : MVal) (hne : k' ≠ k) :
    dictGet (dictSet d k' v) k = dictGet d k := by
  unfold dictSet
  cases hany : d.any (fun kv => kv.1 == k')
  · simp only [Bool.false_eq_true, if_false]
    have hnone : List.find? (fun kv => kv.1 == k) [(k', v)] = none := by
      simp [List.find?_cons, hne]
    rw [dictGet, List.find?_append, hnone, dictGet]
    cases d.find? (fun kv => kv.1 == k) <;> rfl
  · simp only [if_true]
    exact dictGet_map_set_ne d k' k v hne

theorem dictGet_dictUpdate_not_mem (d m : Meta) (k : String)
    (h : ∀ kv ∈ m, kv.1 ≠ k) :
    dictGet (dictUpdate d m) k = dictGet d k := by
  induction m generalizing d with
  | nil => rfl
  | cons kv rest ih =>
      rw [dictUpdate, List.foldl_cons]
      have hrec : dictGet (dictUpdate (dictSet d kv.1 kv.2) rest) k
          = dictGet (dictSet d kv.1 kv.2) k :=
        ih (dictSet d kv.1 kv.2) (fun kv' h' => h kv' (List.mem_cons_of_mem _ h'))
      rw [dictUpdate] at hrec
      rw [hrec, dictGet_dictSet_ne _ _ _ _ (h kv (List.mem_cons_self _ _))]

theorem dictGet_dictUpdate_of_get (d m : Meta) (k : String) (v : MVal)
    (hnd : (m.map Prod.fst).Nodup) (h : dictGet m k = some v) :
    dictGet (dictUpdate d m) k = some v := by
  induction m generalizing d with
  | nil => rw [dictGet_nil] at h; exact Option.noConfusion h
  | cons kv rest ih =>
      rw [List.map_cons] at hnd
      have hnd1 : kv.1 ∉ rest.map Prod.fst := (List.nodup_cons.mp hnd).1
      have hnd2 : (rest.map Prod.fst).Nodup := (List.nodup_cons.mp hnd).2
      rw [dictUpdate, List.foldl_cons]
      cases hk : (kv.1 == k)
      · rw [dictGet_cons_neg _ _ _ hk] at h
        show dictGet (dictUpdate (dictSet d kv.1 kv.2) rest) k = some v
        exact ih (dictSet d kv.1 kv.2) hnd2 h
      · have hkeq : kv.1 = k := by simpa using hk
        have hv : kv.2 = v := by
          rw [dictGet_cons_pos _ _ _ hk] at h
          simpa using h
        have hnotin : ∀ kv' ∈ rest, kv'.1 ≠ k := by
          intro kv' h' heq
          exact hnd1 (by
            rw [hkeq, ← heq]
            exact List.mem_map_of_mem Prod.fst h')
        have hrec : dictGet (dictUpdate (dictSet d kv.1 kv.2) rest) k
            = dictGet (dictSet d kv.1 kv.2) k :=
          dictGet_dictUpdate_not_mem _ _ _ hnotin
        rw [dictUpdate] at hrec
        rw [hrec, hkeq, hv, dictGet_dictSet_self]

/-- C9: when the caller-supplied metadata map contains one of the reserved
keys `document_id`, `chunk_index` or `source_file`, the value given by the caller
silently overwrites the pipeline-generated value in the per-chunk metadata,
because `chunk_metadata.update(metadata)` runs after the reserved keys are
set. -/
theorem c9_caller_metadata_overwrites (document_id file_path : String)
    (i : Nat) (metadata : Meta) (k : String) (v : MVal)
    ( _hk : k = "document_id" ∨ k = "chunk_index" ∨ k = "source_file")
    (hnd : (metadata.map Prod.fst).Nodup)
    (hv : dictGet metadata k = some v) :
    dictGet (buildChunkMeta document_id i file_path metadata) k = some v := by
  unfold buildChunkMeta
  cases hm : metadata.isEmpty
  · simp only [Bool.false_eq_true, if_false]
    exact dictGet_dictUpdate_of_get _ _ _ _ hnd hv
  · rw [List.isEmpty_iff] at hm
    subst hm
    rw [dictGet_nil] at hv
    exact Option.noConfusion hv

theorem c9_caller_metadata_overwrites_witness :
    dictGet (buildChunkMeta "doc1" 0 "f.pdf" [("document_id", MVal.s "evil")])
        "document_id" = some (MVal.s "evil") :=
  c9_caller_metadata_overwrites "doc1" "f.pdf" 0 _ _ _ (Or.inl rfl)
    (by decide) (by decide)

theorem eid_mem_upsertOne_self (idx : List IndexEntry) (e : IndexEntry) :
    e.eid ∈ (upsertOne idx e).map (fun x => x.eid) := by
  unfold upsertOne
  cases hany : idx.any (fun e0 => e0.eid == e.eid)
  · simp
  · simp only [if_true]
    obtain ⟨e0, hmem, heq⟩ := List.any_eq_true.mp hany
    have hrepl : (fun e0 => if e0.eid == e.eid then e else e0) e0 = e := by
      simp [heq]
    exact List.mem_map.mpr ⟨e, List.mem_map.mpr ⟨e0, hmem, hrepl⟩, rfl⟩

theorem eid_mem_upsertOne_of_mem (idx : List IndexEntry) (e : IndexEntry)
    (s : String) (hs : s ∈ idx.map (fun x => x.eid)) :
    s ∈ (upsertOne idx e).map (fun x => x.eid) := by
  unfold upsertOne
  cases hany : idx.any (fun e0 => e0.eid == e.eid)
  · simp only [Bool.false_eq_true, if_false]
    rw [List.map_append]
    exact List.mem_append_left _ hs
  · simp only [if_true]
    have hmapeq :
        (idx.map (fun e0 => if e0.eid == e.eid then e else e0)).map (fun x => x.eid)
          = idx.map (fun x => x.eid) := by
      rw [List.map_map]
      apply List.map_congr_left
      intro e0 _
      simp only [Function.comp]
      by_cases h : (e0.eid == e.eid) = true
      · rw [if_pos h]
        exact (eq_of_beq h).symm
      · rw [if_neg h]
    rw [hmapeq]
    exact hs

theorem eid_mem_indexUpsert (new idx : List IndexEntry) (s : String)
    (hs : s ∈ idx.map (fun x => x.eid) ∨ s ∈ new.map (fun x => x.eid)) :
    s ∈ (indexUpsert idx new).map (fun x => x.eid) := by
  induction new generalizing idx with
  | nil =>
      rcases hs with hs | hs
      · exact hs
      · cases hs
  | cons e rest ih =>
      show s ∈ (indexUpsert (upsertOne idx e) rest).map (fun x => x.eid)
      rcases hs with hs | hs
      · exact ih (upsertOne idx e) (Or.inl (eid_mem_upsertOne_of_mem _ _ _ hs))
      · rw [List.map_cons] at hs
        rcases List.mem_cons.mp hs with h | h
        · subst h
          exact ih (upsertOne idx e) (Or.inl (eid_mem_upsertOne_self _ _))
        · exact ih (upsertOne idx e) (Or.inr h)

theorem mem_upsertOne_of_ne (idx : List IndexEntry) (e e' : IndexEntry)
    (hmem : e ∈ idx) (hne : e.eid ≠ e'.eid) : e ∈ upsertOne idx e' := by
  unfold upsertOne
  cases hany : idx.any (fun e0 => e0.eid == e'.eid)
  · simp only [Bool.false_eq_true, if_false]
    exact List.mem_append_left _ hmem
  · simp only [if_true]
    refine List.mem_map.mpr ⟨e, hmem, ?_⟩
    have hb : (e.eid == e'.eid) = false := by simpa using hne
    simp [hb]

theorem mem_indexUpsert_of_not_new (new idx : List IndexEntry) (e : IndexEntry)
    (hmem : e ∈ idx) (hid : e.eid ∉ new.map (fun x => x.eid)) :
    e ∈ indexUpsert idx new := by
  induction new generalizing idx with
  | nil => exact hmem
  | cons e' rest ih =>
      rw [List.map_cons] at hid
      show e ∈ indexUpsert (upsertOne idx e') rest
      refine ih (upsertOne idx e')
        (mem_upsertOne_of_ne _ _ _ hmem ?_) (fun h => hid (List.mem_cons_of_mem _ h))
      intro h
      exact hid (List.mem_cons.mpr (Or.inl h))

theorem eid_mkEntries (document_id file_path : String) (metadata : Meta)
    (texts : List (List Char)) (embs : List (List Int)) :
    (mkEntries document_id file_path metadata texts embs).map (fun e => e.eid)
      = (List.range texts.length).map (chunkId document_id) := by
  unfold mkEntries
  rw [List.map_map]
  rfl

theorem processPdf_ok_index (extracted : List (List Char)) (embs : List (List Int))
    (file_path document_id : String) (metadata : Meta) (st : PipelineState)
    (hne : extracted.isEmpty = false) :
    (processPdfDocument extracted (Except.ok embs) true file_path document_id
        metadata st).2.index
      = indexUpsert st.index (mkEntries document_id file_path metadata extracted embs) := by
  unfold processPdfDocument
  cases hreg : registryFind st.registry document_id <;> simp [hne, hreg]

/-- C10: a successful run (non-empty extraction, embedding and insert both
succeed) on a `document_id` that has no record in the document registry still
returns `True`: the registry update is silently skipped — the registry is
unchanged — while every chunk id of the new document is stored in the
index. -/
theorem c10_missing_registry_record (extracted : List (List Char))
    (embs : List (List Int)) (file_path document_id : String) (metadata : Meta)
    (st : PipelineState) (hne : extracted.isEmpty = false)
    (hreg : registryFind st.registry document_id = none) :
    (processPdfDocument extracted (Except.ok embs) true file_path document_id
        metadata st).1 = true
      ∧ (processPdfDocument extracted (Except.ok embs) true file_path document_id
          metadata st).2.registry = st.registry
      ∧ ∀ i, i < extracted.length →
          chunkId document_id i ∈ ((processPdfDocument extracted (Except.ok embs)
            true file_path document_id metadata st).2.index).map (fun e => e.eid) := by
  have hstate : processPdfDocument extracted (Except.ok embs) true file_path
      document_id metadata st
      = (true, ⟨indexUpsert st.index
          (mkEntries document_id file_path metadata extracted embs), st.registry⟩) := by
    unfold processPdfDocument
    simp [hne, hreg]
  refine ⟨by rw [hstate], by rw [hstate], ?_⟩
  intro i hi
  rw [hstate]
  apply eid_mem_indexUpsert
  right
  rw [eid_mkEntries]
  exact List.mem_map.mpr ⟨i, List.mem_range.mpr hi, rfl⟩

theorem c10_missing_registry_record_witness :
    (processPdfDocument [['a']] (Except.ok [[1]]) true "f.pdf" "d" []
        ⟨[], []⟩).1 = true
      ∧ (processPdfDocument [['a']] (Except.ok [[1]]) true "f.pdf" "d" []
          ⟨[], []⟩).2.registry = []
      ∧ chunkId "d" 0 ∈ ((processPdfDocument [['a']] (Except.ok [[1]]) true
          "f.pdf" "d" [] ⟨[], []⟩).2.index).map (fun e => e.eid) := by
  have h := c10_missing_registry_record [['a']] [[1]] "f.pdf" "d" [] ⟨[], []⟩ rfl rfl
  exact ⟨h.1, h.2.1, h.2.2 0 (by decide)⟩

/-- C3 counterexample: `process_pdf_document` performs no delete before the
insert.  Re-ingesting document `d` — whose index holds 2 old chunks — with
new content producing exactly 1 chunk succeeds, yet the index count
restricted to `d` is 2 (the upsert replaced `d_chunk_0` and left `d_chunk_1`
behind), not the new chunk count 1 the claim requires. -/
theorem c3_counterexample :
    (processPdfDocument [['x']] (Except.ok [[0]]) true "f.pdf" "d" [] c3State).1
        = true
      ∧ countDoc c3After.index "d" = 2
      ∧ countDoc c3After.index "d" ≠ ([['x']] : List (List Char)).length := by
  decide

/-- C3 amended: the pipeline performs no delete-before-insert — insertion
upserts by chunk id, so after a successful re-ingestion every pre-existing
index entry whose id is not among the new chunk ids
`{document_id}_chunk_{0..n-1}` is still stored; the per-document count is
the old entries with stale ids plus the new chunks, not the new chunk count.
(`delete_document_chunks` exists but is only invoked by the document-deletion
endpoint, not by any re-ingestion path.) -/
theorem c3_no_delete_before_insert (extracted : List (List Char))
    (embs : List (List Int)) (file_path document_id : String) (metadata : Meta)
    (st : PipelineState) (hne : extracted.isEmpty = false) (e : IndexEntry)
    (he : e ∈ st.index)
    (hid : e.eid ∉ (List.range extracted.length).map (chunkId document_id)) :
    e ∈ (processPdfDocument extracted (Except.ok embs) true file_path
        document_id metadata st).2.index := by
  rw [processPdf_ok_index _ _ _ _ _ _ hne]
  refine mem_indexUpsert_of_not_new _ _ _ he ?_
  rw [eid_mkEntries]
  exact hid

theorem c3_no_delete_before_insert_witness :
    c3Entry1 ∈ (processPdfDocument [['x']] (Except.ok [[0]]) true "f.pdf" "d"
        [] c3State).2.index :=
  c3_no_delete_before_insert [['x']] [[0]] "f.pdf" "d" [] c3State rfl c3Entry1
    (by decide) (by decide)

theorem lastIdxAux_eq_filter_getLast (s : List Char) (k : Nat) :
    lastIdxAux s k
      = ((List.range k).filter (fun i => isSentenceEnd (s.getD i ' '))).getLast? := by
  induction k with
  | zero => rfl
  | succ k ih =>
      rw [List.range_succ, List.filter_append]
      cases h : isSentenceEnd (s.getD k ' ')
      · rw [lastIdxAux, if_neg (by rw [h]; exact Bool.false_ne_true), ih]
        have hfk : List.filter (fun i => isSentenceEnd (s.getD i ' ')) [k] = [] := by
          rw [List.filter_cons,
            if_neg (by rw [h]; exact Bool.false_ne_true)]
          rfl
        rw [hfk, List.append_nil]
      · rw [lastIdxAux, if_pos h]
        have hfk : List.filter (fun i => isSentenceEnd (s.getD i ' ')) [k] = [k] := by
          rw [List.filter_cons, if_pos h]
          rfl
        rw [hfk, List.getLast?_concat]

theorem lastSentenceIdx_eq_spec (s : List Char) :
    lastSentenceIdx s = specLastTerminal s := by
  unfold lastSentenceIdx specLastTerminal
  exact lastIdxAux_eq_filter_getLast s s.length

/-- C4: in every iteration of `_chunk_text` whose proposed end offset
`start + chunk_size` is strictly before the end of the text, the end moves to
just after the nearest sentence-terminal character found searching backward
from the proposed end within the window `text[start:end]` — i.e. the greatest
window index holding `.`, `!` or `?` — and stays at the raw proposed offset
when the window holds none. -/
theorem c4_end_snaps_to_nearest_terminal (text : List Char)
    (chunk_size start : Int)
    (h : start + chunk_size < (text.length : Int)) :
    computeEnd text chunk_size start
      = match specLastTerminal (pySlice text start (start + chunk_size)) with
        | some i => start + (i : Int) + 1
        | none => start + chunk_size := by
  simp only [computeEnd]
  rw [if_pos h, lastSentenceIdx_eq_spec]

theorem c4_end_snaps_to_nearest_terminal_witness :
    computeEnd "ab.cd".data 4 0 = 3 := by
  have h := c4_end_snaps_to_nearest_terminal "ab.cd".data 4 0 (by decide)
  rw [h]
  decide

theorem pyIdx_sub_le (n : Nat) (a b : Int) (hb : 0 ≤ b ∨ a < 0) :
    pyIdx n b ≤ pyIdx n a + (b - a).toNat := by
  unfold pyIdx
  split_ifs <;> omega

theorem pySlice_length_le (s : List Char) (a b : Int) (hb : 0 ≤ b ∨ a < 0) :
    (pySlice s a b).length ≤ (b - a).toNat := by
  unfold pySlice
  rw [List.length_take, List.length_drop]
  have := pyIdx_sub_le s.length a b hb
  omega

theorem pyStrip_length_le (s : List Char) : (pyStrip s).length ≤ s.length := by
  unfold pyStrip
  rw [List.length_reverse]
  calc ((s.dropWhile pyIsSpace).reverse.dropWhile pyIsSpace).length
      ≤ (s.dropWhile pyIsSpace).reverse.length :=
        (List.dropWhile_sublist pyIsSpace).length_le
    _ = (s.dropWhile pyIsSpace).length := List.length_reverse _
    _ ≤ s.length := (List.dropWhile_sublist pyIsSpace).length_le

theorem lastIdxAux_lt (s : List Char) (k i : Nat)
    (h : lastIdxAux s k = some i) : i < k := by
  induction k with
  | zero => exact Option.noConfusion h
  | succ k ih =>
      rw [lastIdxAux] at h
      split at h
      · cases h
        omega
      · exact Nat.lt_succ_of_lt (ih h)

theorem lastSentenceIdx_lt (s : List Char) (i : Nat)
    (h : lastSentenceIdx s = some i) : i < s.length :=
  lastIdxAux_lt s s.length i h

theorem computeEnd_le (text : List Char) (cs start : Int) (hcs : 0 < cs) :
    computeEnd text cs start ≤ start + cs := by
  simp only [computeEnd]
  split
  · split
    · rename_i i heq
      have hi : i < (pySlice text start (start + cs)).length :=
        lastSentenceIdx_lt _ _ heq
      have hlen : (pySlice text start (start + cs)).length
          ≤ ((start + cs) - start).toNat :=
        pySlice_length_le _ _ _ (by omega)
      omega
    · exact le_refl _
  · exact le_refl _

theorem computeEnd_nonneg_or (text : List Char) (cs start : Int) (hcs : 0 < cs) :
    0 ≤ computeEnd text cs start ∨ start < 0 := by
  by_cases hst : start < 0
  · exact Or.inr hst
  · left
    simp only [computeEnd]
    split
    · split
      · rename_i i heq
        omega
      · omega
    · omega

theorem chunk_length_le (text : List Char) (cs start : Int) (hcs : 0 < cs) :
    ((pyStrip (pySlice text start (computeEnd text cs start))).length : Int)
      ≤ cs := by
  have h1 := pyStrip_length_le (pySlice text start (computeEnd text cs start))
  have h2 := pySlice_length_le text start (computeEnd text cs start)
    (computeEnd_nonneg_or text cs start hcs)
  have h3 := computeEnd_le text cs start hcs
  omega

theorem chunkLoop_sound (text : List Char) (cs ov : Int) (hcs : 0 < cs) :
    ∀ (fuel : Nat) (start : Int) (acc res : List (List Char)),
      (∀ c ∈ acc, c ≠ [] ∧ (c.length : Int) ≤ cs
        ∧ ∃ a b : Int, b ≤ a + cs ∧ c = pyStrip (pySlice text a b)) →
      chunkLoop text cs ov fuel start acc = some res →
      ∀ c ∈ res, c ≠ [] ∧ (c.length : Int) ≤ cs
        ∧ ∃ a b : Int, b ≤ a + cs ∧ c = pyStrip (pySlice text a b) := by
  intro fuel
  induction fuel with
  | zero =>
      intro start acc res hacc h
      rw [chunkLoop] at h
      split at h
      · exact Option.noConfusion h
      · exact Option.some.inj h ▸ hacc
  | succ f ih =>
      intro start acc res hacc h
      rw [chunkLoop] at h
      split at h
      · refine ih _ _ _ ?_ h
        intro c hc
        unfold pushChunk at hc
        split at hc
        · exact hacc c hc
        · rename_i hne
          rcases List.mem_append.mp hc with hc | hc
          · exact hacc c hc
          · rw [List.mem_singleton] at hc
            subst hc
            refine ⟨by simpa using hne, chunk_length_le text cs start hcs,
              start, computeEnd text cs start, computeEnd_le text cs start hcs, rfl⟩
      · exact Option.some.inj h ▸ hacc

/-- C6: whenever `_chunk_text` finishes, every chunk it emitted is some slice
`text[start:end]` of the input with `end ≤ start + chunk_size`, trimmed of
leading and trailing whitespace, non-empty after trimming, and of length at
most `chunk_size` characters. -/
theorem c6_chunks_wellformed (text : List Char) (cs ov : Int) (fuel : Nat)
    (res : List (List Char)) (hcs : 0 < cs)
    (h : chunkText text cs ov fuel = some res) (c : List Char) (hc : c ∈ res) :
    c ≠ [] ∧ (c.length : Int) ≤ cs
      ∧ ∃ a b : Int, b ≤ a + cs ∧ c = pyStrip (pySlice text a b) :=
  chunkLoop_sound text cs ov hcs fuel 0 [] res (fun c hc => absurd hc (by simp))
    h c hc

theorem c6_chunks_wellformed_witness :
    (['a', 'b'] : List Char) ≠ [] ∧ ((['a', 'b'] : List Char).length : Int) ≤ 3 := by
  have h := c6_chunks_wellformed "ab".data 3 1 5 [['a', 'b']] (by decide)
    (by decide) ['a', 'b'] (by decide)
  exact ⟨h.1, h.2.1⟩

end RagService
